import Mathlib

/-!
Verification development for the compress-nio repository.

Part 1 embeds the one source file, Sources/CCompressZlib/include/CCompressZlib.h:
three static inline C wrappers around zlib.  zlib itself is an external
dependency the header treats as a black box, so its two initialization
routines are embedded as abstract state transformers (function parameters);
the wrappers are translated literally from the header.

Part 2 models, from the specification document, the streaming
compression/decompression engine the spec describes (LZ77 matcher, block
compressor, stream wrapper with checksum, decompressor, error taxonomy), and
proves the spec's testable properties about that model.
-/

namespace CompressNio

/-! ## Part 1: the CCompressZlib.h adapter header -/

/-- A C `void*` value, modelled by its address.  Address 0 is NULL. -/
structure VoidPtr where
  addr : Nat
deriving DecidableEq, Repr

/-- A zlib `Bytef*` value, modelled by its address.  Address 0 is NULL. -/
structure BytefPtr where
  addr : Nat
deriving DecidableEq, Repr

/-- A zlib `z_streamp` (pointer to a `z_stream`), modelled by its address. -/
structure ZStreamPtr where
  addr : Nat
deriving DecidableEq, Repr

/-- The program's mutable memory, an abstract byte map from addresses. -/
structure Mem where
  bytes : Nat → Nat

/-- The NULL `void*`. -/
def nullVoidPtr : VoidPtr := ⟨0⟩

/-- The NULL `Bytef*`. -/
def nullBytefPtr : BytefPtr := ⟨0⟩

/-- `CCompressZlib_voidPtr_to_BytefPtr` from CCompressZlib.h, lines 19-21:
`return (Bytef *)in;` — a pointer cast, reinterpreting the address at type
`Bytef*`. -/
def CCompressZlib_voidPtr_to_BytefPtr (input : VoidPtr) : BytefPtr :=
  ⟨input.addr⟩

/-- The same cast in an explicit state-passing semantics: the body of the C
function is a single cast expression, so the embedding threads the memory
through unchanged and has no error branch (its return type is a plain pair,
not an `Except`). -/
def CCompressZlib_voidPtr_to_BytefPtr_run (m : Mem) (input : VoidPtr) :
    Mem × BytefPtr :=
  (m, CCompressZlib_voidPtr_to_BytefPtr input)

/-- The semantics of a call to zlib's `deflateInit2`: given the memory and the
arguments, it returns the new memory and the `int` return value.  zlib is
external to the repository, so this is an arbitrary function parameter. -/
def ZlibDeflateInit2Sem : Type :=
  Mem → ZStreamPtr → Int → Int → Int → Int → Int → Mem × Int

/-- The semantics of a call to zlib's `inflateInit2`. -/
def ZlibInflateInit2Sem : Type :=
  Mem → ZStreamPtr → Int → Mem × Int

/-- `CCompressZlib_deflateInit2` from CCompressZlib.h, lines 6-13: the body is
`return deflateInit2(strm, level, method, windowBits, memLevel, strategy);`,
a single call forwarding every parameter in order. -/
def CCompressZlib_deflateInit2 (zlibDeflateInit2 : ZlibDeflateInit2Sem)
    (m : Mem) (strm : ZStreamPtr)
    (level method windowBits memLevel strategy : Int) : Mem × Int :=
  zlibDeflateInit2 m strm level method windowBits memLevel strategy

/-- `CCompressZlib_inflateInit2` from CCompressZlib.h, lines 15-17: the body is
`return inflateInit2(strm, windowBits);`. -/
def CCompressZlib_inflateInit2 (zlibInflateInit2 : ZlibInflateInit2Sem)
    (m : Mem) (strm : ZStreamPtr) (windowBits : Int) : Mem × Int :=
  zlibInflateInit2 m strm windowBits

/-- Claim C1: `CCompressZlib_deflateInit2` returns exactly the value of zlib's
`deflateInit2` applied to the same arguments in the same order, and
`CCompressZlib_inflateInit2` returns exactly the value of zlib's
`inflateInit2` applied to the same arguments; the wrappers forward their
arguments unchanged and add no logic of their own. -/
theorem deflateInit2_inflateInit2_forward
    (zd : ZlibDeflateInit2Sem) (zi : ZlibInflateInit2Sem)
    (m : Mem) (strm : ZStreamPtr)
    (level method windowBits memLevel strategy wbits : Int) :
    (CCompressZlib_deflateInit2 zd m strm level method windowBits memLevel
        strategy).2
      = (zd m strm level method windowBits memLevel strategy).2
    ∧ (CCompressZlib_inflateInit2 zi m strm wbits).2
      = (zi m strm wbits).2 :=
  ⟨rfl, rfl⟩

/-- Claim C2: `CCompressZlib_voidPtr_to_BytefPtr` returns the same address as
its argument, reinterpreted at type `Bytef*`; it is the identity on the
underlying pointer value and maps NULL to NULL. -/
theorem voidPtr_to_BytefPtr_identity (p : VoidPtr) :
    (CCompressZlib_voidPtr_to_BytefPtr p).addr = p.addr
    ∧ CCompressZlib_voidPtr_to_BytefPtr nullVoidPtr = nullBytefPtr :=
  ⟨rfl, rfl⟩

/-- Claim C9: `CCompressZlib_voidPtr_to_BytefPtr` is total and
side-effect-free: in the state-passing semantics it is defined for every
argument, NULL included, leaves the memory exactly as it was, and produces
the address-preserving cast of its argument; its embedding has no error
branch (the result type is a plain pair). -/
theorem voidPtr_to_BytefPtr_pure_total (m : Mem) (p : VoidPtr) :
    (CCompressZlib_voidPtr_to_BytefPtr_run m p).1 = m
    ∧ (CCompressZlib_voidPtr_to_BytefPtr_run m p).2.addr = p.addr
    ∧ (CCompressZlib_voidPtr_to_BytefPtr_run m nullVoidPtr).2
        = nullBytefPtr :=
  ⟨rfl, rfl, rfl⟩

/-- Claim C10: the wrappers read and write no state other than through the
single forwarded zlib call: as state transformers they are extensionally the
underlying `deflateInit2` / `inflateInit2` calls, so any effect on memory
(the pointed-to `z_stream` included) is exactly the effect of that call. -/
theorem wrappers_frame_exact
    (zd : ZlibDeflateInit2Sem) (zi : ZlibInflateInit2Sem)
    (m : Mem) (strm : ZStreamPtr)
    (level method windowBits memLevel strategy wbits : Int) :
    CCompressZlib_deflateInit2 zd m strm level method windowBits memLevel
        strategy
      = zd m strm level method windowBits memLevel strategy
    ∧ CCompressZlib_inflateInit2 zi m strm wbits = zi m strm wbits :=
  ⟨rfl, rfl⟩

/-! ## Part 2: the engine modelled from the spec

The repository contains no codec code: the spec (sections 2-8) describes the
streaming compression/decompression engine such a binding sits in front of.
Everything below is modelled from the spec's words.  Byte sequences are
`List Nat` with entries below 256. -/

/-- Modelled from the spec: the modulus of the Adler-style incremental
checksum of the checksum engine (section 4.5); the repository itself ships no
checksum code. -/
def adlerBase : Nat := 65521

/-- Modelled from the spec: the running state of the incremental checksum
engine, updated per chunk, independent of compression state. -/
structure AdlerState where
  a : Nat
  b : Nat
deriving DecidableEq, Repr

/-- Modelled from the spec: the initial checksum state. -/
def adlerInit : AdlerState := ⟨1, 0⟩

/-- Modelled from the spec: feeding one byte to the checksum engine. -/
def adlerStep (st : AdlerState) (byte : Nat) : AdlerState :=
  let a := (st.a + byte) % adlerBase
  ⟨a, (st.b + a) % adlerBase⟩

/-- Modelled from the spec: feeding a chunk of bytes to the checksum engine. -/
def adlerUpdate (st : AdlerState) (chunk : List Nat) : AdlerState :=
  chunk.foldl adlerStep st

/-- Modelled from the spec: the 32-bit checksum value of a state. -/
def checksumOf (st : AdlerState) : Nat :=
  st.b * 65536 + st.a

/-- Modelled from the spec: the checksum of a byte sequence in one pass. -/
def checksum (s : List Nat) : Nat :=
  checksumOf (adlerUpdate adlerInit s)

theorem adlerUpdate_append (st : AdlerState) (c1 c2 : List Nat) :
    adlerUpdate st (c1 ++ c2) = adlerUpdate (adlerUpdate st c1) c2 := by
  simp [adlerUpdate, List.foldl_append]

/-- Claim C4: for every byte sequence `S` and every split `S = chunk1 ++
chunk2`, the one-pass checksum of `S` equals the incremental checksum that
feeds `chunk1` and then `chunk2`; the checksum value is independent of chunk
boundaries. -/
theorem checksum_chunk_independent (chunk1 chunk2 : List Nat) :
    checksum (chunk1 ++ chunk2)
      = checksumOf (adlerUpdate (adlerUpdate adlerInit chunk1) chunk2)
    ∧ ∀ st : AdlerState, adlerUpdate st (chunk1 ++ chunk2)
      = adlerUpdate (adlerUpdate st chunk1) chunk2 :=
  ⟨congrArg checksumOf (adlerUpdate_append adlerInit chunk1 chunk2),
   fun st => adlerUpdate_append st chunk1 chunk2⟩

/-! ### Codec constants and byte-level encoding -/

/-- Modelled from the spec: the sliding-window capacity (32 KiB, section 3). -/
def windowSize : Nat := 32768

/-- Modelled from the spec: the minimum match length of the LZ77 matcher. -/
def minMatch : Nat := 3

/-- Modelled from the spec: the maximum match length of the LZ77 matcher. -/
def maxMatch : Nat := 258

/-- Little-endian encoding of `n % 256^k` on `k` bytes. -/
def toLE : Nat → Nat → List Nat
  | 0, _ => []
  | k + 1, n => n % 256 :: toLE k (n / 256)

/-- Little-endian decoding of a byte list. -/
def fromLE : List Nat → Nat
  | [] => 0
  | b :: rest => b + 256 * fromLE rest

/-- One's complement of a 32-bit value, the stored-block length check field. -/
def onesComplement32 (n : Nat) : Nat :=
  4294967295 - n % 4294967296

/-! ### LZ77 matcher -/

/-- Modelled from the spec: the longest common run of bytes at positions
`back` and `pos` of `s`, bounded by `fuel`; the comparison stops at the end
of `s`.  The repository ships no matcher; section 4.1 specifies one. -/
def matchLenAux (s : List Nat) : Nat → Nat → Nat → Nat
  | _, _, 0 => 0
  | back, pos, fuel + 1 =>
    if pos < s.length ∧ s.getD back 0 = s.getD pos 0 then
      matchLenAux s (back + 1) (pos + 1) fuel + 1
    else 0

/-- Modelled from the spec: the length of the match starting `pos - back`
bytes back at position `pos`, capped at `maxMatch` and at the end of input. -/
def matchLen (s : List Nat) (back pos : Nat) : Nat :=
  matchLenAux s back pos (min maxMatch (s.length - pos))

/-- Modelled from the spec: the number of candidate positions the matcher
examines, growing with the compression level (section 4.1: higher level
inspects more candidates). -/
def maxCandidates (level : Nat) : Nat :=
  8 * level

/-- Modelled from the spec: the candidate back-reference distances at `pos`,
newest first, never before the stream start nor beyond the window, at most
`maxCandidates level` of them. -/
def candidateDistances (level pos : Nat) : List Nat :=
  (List.range (min (min pos windowSize) (maxCandidates level))).map (· + 1)

/-- Modelled from the spec: fold step of the candidate walk; a candidate
replaces the best so far only when strictly longer, so among equal lengths
the smallest distance (seen first) is kept. -/
def considerCandidate (s : List Nat) (pos : Nat) (best : Nat × Nat) (d : Nat) :
    Nat × Nat :=
  let l := matchLen s (pos - d) pos
  if best.2 < l then (d, l) else best

/-- Modelled from the spec: the matcher's best `(distance, length)` candidate
at `pos`, `(0, 0)` when there is none. -/
def bestMatch (s : List Nat) (level pos : Nat) : Nat × Nat :=
  (candidateDistances level pos).foldl (considerCandidate s pos) (0, 0)

/-- Modelled from the spec: a token is `Literal(byte)` or
`Match(distance, length)` (section 3); `backref` stands for `Match`. -/
inductive Token where
  | literal (b : Nat)
  | backref (dist len : Nat)
deriving DecidableEq, Repr

/-- Modelled from the spec: the token stream the matcher emits from position
`pos`, with `fuel` bounding the number of steps (`fuel ≥ s.length - pos`
suffices since every step advances).  A `Match` is emitted only when the best
candidate reaches the minimum length threshold, otherwise a `Literal`. -/
def tokenizeAux (s : List Nat) (level : Nat) : Nat → Nat → List Token
  | _, 0 => []
  | pos, fuel + 1 =>
    if pos < s.length then
      let dl := bestMatch s level pos
      if minMatch ≤ dl.2 then
        Token.backref dl.1 dl.2 :: tokenizeAux s level (pos + dl.2) fuel
      else
        Token.literal (s.getD pos 0) :: tokenizeAux s level (pos + 1) fuel
    else []

/-- Modelled from the spec: the LZ77 token stream of a whole input. -/
def tokenize (s : List Nat) (level : Nat) : List Token :=
  tokenizeAux s level 0 s.length

/-! ### Decompressor-side token resolution -/

/-- Modelled from the spec: the decompressor's error taxonomy (section 7). -/
inductive DecompressError where
  | corruptData
  | unexpectedEnd
  | checksumMismatch
  | unsupportedFormat
deriving DecidableEq, Repr

/-- Modelled from the spec: copying `l` bytes from `d` bytes back in the
produced output, one byte at a time, so overlapping copies (`d < l`) repeat
recent output (section 4.4). -/
def copyBack (out : List Nat) (d : Nat) : Nat → List Nat
  | 0 => out
  | l + 1 => copyBack (out ++ [out.getD (out.length - d) 0]) d l

/-- Modelled from the spec: resolving a token stream against the output
produced so far; fails with `CorruptData` when a match distance exceeds the
bytes already produced (section 4.4). -/
def decodeTokens (out : List Nat) : List Token → Except DecompressError (List Nat)
  | [] => .ok out
  | Token.literal b :: ts => decodeTokens (out ++ [b]) ts
  | Token.backref d l :: ts =>
    if 1 ≤ d ∧ d ≤ out.length then decodeTokens (copyBack out d l) ts
    else .error .corruptData

/-! ### Token serialization (the fixed coded-payload format) -/

/-- Modelled from the spec: byte serialization of one token under the fixed
code table.  The spec's Huffman coder (section 4.2) is abstracted to a fixed
prefix-free byte-aligned code: tag 0 introduces a literal, tag 1 a match
(distance minus one on two little-endian bytes, then length minus
`minMatch`); tag 2 is the end-of-block symbol. -/
def encodeToken : Token → List Nat
  | Token.literal b => [0, b]
  | Token.backref d l => [1, (d - 1) % 256, (d - 1) / 256, l - minMatch]

/-- Modelled from the spec: serialization of a token stream, terminated by
the end-of-block symbol. -/
def encodeTokens : List Token → List Nat
  | [] => [2]
  | t :: ts => encodeToken t ++ encodeTokens ts

/-- Modelled from the spec: parsing a serialized token stream up to the
end-of-block symbol, returning the tokens and the unconsumed rest.  Runs out
of input mid-token with `UnexpectedEnd`; an unknown tag is `CorruptData`. -/
def parseTokens : Nat → List Nat → Except DecompressError (List Token × List Nat)
  | 0, _ => .error .unexpectedEnd
  | _ + 1, [] => .error .unexpectedEnd
  | fuel + 1, tag :: rest =>
    if tag = 2 then .ok ([], rest)
    else if tag = 0 then
      match rest with
      | [] => .error .unexpectedEnd
      | b :: rest2 =>
        match parseTokens fuel rest2 with
        | .ok (ts, r) => .ok (Token.literal b :: ts, r)
        | .error e => .error e
    else if tag = 1 then
      match rest with
      | d0 :: d1 :: l0 :: rest2 =>
        match parseTokens fuel rest2 with
        | .ok (ts, r) =>
          .ok (Token.backref (d0 + 256 * d1 + 1) (l0 + minMatch) :: ts, r)
        | .error e => .error e
      | _ => .error .unexpectedEnd
    else .error .corruptData

/-! ### Block and container format -/

/-- Modelled from the spec: the fixed container header, method byte (8) and
window-size hint byte (7), section 4.5. -/
def headerBytes : List Nat := [8, 7]

/-- Modelled from the spec: the container trailer, 32-bit checksum then
32-bit uncompressed length, little-endian (section 4.5). -/
def trailerBytes (s : List Nat) : List Nat :=
  toLE 4 (checksum s) ++ toLE 4 s.length

/-- Modelled from the spec: a stored-block payload, length, its one's
complement, then the raw bytes (section 6). -/
def storedPayload (s : List Nat) : List Nat :=
  toLE 4 s.length ++ toLE 4 (onesComplement32 s.length) ++ s

/-- Modelled from the spec: a coded-block payload, the serialized token
stream of the input. -/
def compressedPayload (level : Nat) (s : List Nat) : List Nat :=
  encodeTokens (tokenize s level)

/-- Modelled from the spec: the single final block of a stream: final-flag
byte, block-type byte (0 stored, 1 coded), payload.  Level 0 always stores;
higher levels compare the candidates and emit the cheaper (section 4.3). -/
def blockFor (level : Nat) (s : List Nat) : List Nat :=
  if level = 0 then 1 :: 0 :: storedPayload s
  else
    let cp := compressedPayload level s
    let sp := storedPayload s
    if cp.length < sp.length then 1 :: 1 :: cp else 1 :: 0 :: sp

/-- Modelled from the spec: the compressor, assembling header, blocks and
trailer (sections 4.3 and 4.5).  The repository ships no compressor. -/
def compress (level : Nat) (s : List Nat) : List Nat :=
  headerBytes ++ blockFor level s ++ trailerBytes s

/-- Modelled from the spec: parsing one stored-block payload. -/
def parseStored (out rest : List Nat) :
    Except DecompressError (List Nat × List Nat) :=
  if rest.length < 8 then .error .unexpectedEnd
  else
    let len := fromLE (rest.take 4)
    let comp := fromLE ((rest.drop 4).take 4)
    if comp ≠ onesComplement32 len then .error .corruptData
    else
      let body := rest.drop 8
      if body.length < len then .error .unexpectedEnd
      else .ok (out ++ body.take len, body.drop len)

/-- Modelled from the spec: parsing one block's payload given its type byte. -/
def parseBlockPayload (btype : Nat) (out rest : List Nat) :
    Except DecompressError (List Nat × List Nat) :=
  if btype = 0 then parseStored out rest
  else if btype = 1 then
    match parseTokens rest.length rest with
    | .ok (ts, r) =>
      match decodeTokens out ts with
      | .ok out2 => .ok (out2, r)
      | .error e => .error e
    | .error e => .error e
  else .error .corruptData

/-- Modelled from the spec: the decompressor's block loop (section 4.4):
read the final-flag and block-type bytes, parse the payload, loop until the
final-block flag; an out-of-range flag or type byte is `CorruptData`, input
exhausted mid-block is `UnexpectedEnd`. -/
def parseBlocks : Nat → List Nat → List Nat → Except DecompressError (List Nat × List Nat)
  | 0, _, _ => .error .unexpectedEnd
  | fuel + 1, out, finalFlag :: btype :: rest =>
    if finalFlag ≤ 1 ∧ btype ≤ 1 then
      match parseBlockPayload btype out rest with
      | .ok (out2, r) =>
        if finalFlag = 1 then .ok (out2, r) else parseBlocks fuel out2 r
      | .error e => .error e
    else .error .corruptData
  | _ + 1, _, _ => .error .unexpectedEnd

/-- Modelled from the spec: the decompressor with stream wrapper (sections
4.4 and 4.5): validate the header, parse blocks to the final one, then check
the 8-byte trailer against the computed checksum and length; a trailer that
disagrees is `ChecksumMismatch`, missing bytes are `UnexpectedEnd`. -/
def decompress (input : List Nat) : Except DecompressError (List Nat) :=
  match input with
  | m :: w :: rest =>
    if m = 8 ∧ w = 7 then
      match parseBlocks (rest.length + 1) [] rest with
      | .ok (out, r) =>
        if r.length < 8 then .error .unexpectedEnd
        else if 8 < r.length then .error .corruptData
        else if fromLE (r.take 4) = checksum out
                ∧ fromLE (r.drop 4) = out.length % 4294967296 then .ok out
        else .error .checksumMismatch
      | .error e => .error e
    else .error .unsupportedFormat
  | _ => .error .unexpectedEnd

/-- Flipping bit `k` of the byte at position `i` (XOR with `2^k`). -/
def flipBitAt (s : List Nat) (i k : Nat) : List Nat :=
  s.set i (s.getD i 0 ^^^ 2 ^ k)

/-! ### The caller-facing API (section 6) -/

/-- Modelled from the spec: the compression-side error taxonomy (section 7):
`InvalidArgument` is the only compression-side error value; out-of-memory is
a resource condition outside this embedding. -/
inductive CompressError where
  | invalidArgument
deriving DecidableEq, Repr

/-- Modelled from the spec: a buffer-too-small condition is a status distinct
from the error type, so callers can resize and retry (section 7). -/
inductive ProcessStatus where
  | done
  | needMoreSpace
deriving DecidableEq, Repr

/-- Modelled from the spec: the stream state a successful `initCompress`
returns (section 3, simplified to the validated parameters). -/
structure CompressState where
  level : Nat
  windowBits : Nat
  strategy : Nat
deriving DecidableEq, Repr

/-- Modelled from the spec: argument validation of `initCompress`: level 0-9,
window bits 9-15, strategy 0-4. -/
def validCompressArgs (level windowBits strategy : Int) : Prop :=
  0 ≤ level ∧ level ≤ 9 ∧ 9 ≤ windowBits ∧ windowBits ≤ 15
    ∧ 0 ≤ strategy ∧ strategy ≤ 4

instance (level windowBits strategy : Int) :
    Decidable (validCompressArgs level windowBits strategy) := by
  unfold validCompressArgs
  infer_instance

/-- Modelled from the spec: `initCompress(level, windowBits, strategy)`
(section 6); out-of-range arguments are `InvalidArgument` (section 7). -/
def initCompress (level windowBits strategy : Int) :
    Except CompressError CompressState :=
  if validCompressArgs level windowBits strategy then
    .ok ⟨level.toNat, windowBits.toNat, strategy.toNat⟩
  else .error .invalidArgument

/-- Modelled from the spec: one `process` call that consumes the whole input
with flush mode `finish`, into an output buffer of capacity `outCap`; when
the buffer is too small it reports `needMoreSpace` as a status, not an
error, and compression of valid input never fails (section 7). -/
def processCompress (st : CompressState) (input : List Nat) (outCap : Nat) :
    Except CompressError (ProcessStatus × List Nat) :=
  let out := compress st.level input
  if out.length ≤ outCap then .ok (.done, out) else .ok (.needMoreSpace, [])

/-! ### Byte-encoding lemmas -/

theorem toLE_length (k n : Nat) : (toLE k n).length = k := by
  induction k generalizing n with
  | zero => rfl
  | succ k ih => simp [toLE, ih]

theorem toLE_bytes_lt (k n : Nat) : ∀ b ∈ toLE k n, b < 256 := by
  induction k generalizing n with
  | zero => simp [toLE]
  | succ k ih =>
    intro b hb
    simp only [toLE, List.mem_cons] at hb
    rcases hb with h | h
    · exact h ▸ Nat.mod_lt _ (by omega)
    · exact ih _ b h

theorem fromLE_toLE (k n : Nat) : fromLE (toLE k n) = n % 256 ^ k := by
  induction k generalizing n with
  | zero => simp [toLE, fromLE, Nat.mod_one]
  | succ k ih =>
    simp only [toLE, fromLE, ih]
    rw [pow_succ', Nat.mod_mul]

theorem fromLE_inj (l1 l2 : List Nat) (hlen : l1.length = l2.length)
    (h1 : ∀ b ∈ l1, b < 256) (h2 : ∀ b ∈ l2, b < 256)
    (h : fromLE l1 = fromLE l2) : l1 = l2 := by
  induction l1 generalizing l2 with
  | nil =>
    cases l2 with
    | nil => rfl
    | cons b t => simp at hlen
  | cons b1 t1 ih =>
    cases l2 with
    | nil => simp at hlen
    | cons b2 t2 =>
      simp only [fromLE] at h
      have hb1 : b1 < 256 := h1 b1 (by simp)
      have hb2 : b2 < 256 := h2 b2 (by simp)
      have hb : b1 = b2 := by omega
      have ht : fromLE t1 = fromLE t2 := by omega
      have := ih t2 (by simpa using hlen) (fun b hb => h1 b (by simp [hb]))
        (fun b hb => h2 b (by simp [hb])) ht
      rw [hb, this]

/-! ### Matcher lemmas -/

theorem matchLenAux_le (s : List Nat) (back pos fuel : Nat) :
    matchLenAux s back pos fuel ≤ fuel := by
  induction fuel generalizing back pos with
  | zero => simp [matchLenAux]
  | succ fuel ih =>
    simp only [matchLenAux]
    split
    · exact Nat.succ_le_succ (ih _ _)
    · omega

theorem matchLenAux_spec (s : List Nat) (fuel back pos j : Nat)
    (hj : j < matchLenAux s back pos fuel) :
    pos + j < s.length ∧ s.getD (back + j) 0 = s.getD (pos + j) 0 := by
  induction fuel generalizing back pos j with
  | zero => simp [matchLenAux] at hj
  | succ fuel ih =>
    simp only [matchLenAux] at hj
    by_cases hc : pos < s.length ∧ s.getD back 0 = s.getD pos 0
    · rw [if_pos hc] at hj
      cases j with
      | zero => simpa using hc
      | succ j =>
        have := ih (back + 1) (pos + 1) j (by omega)
        constructor
        · omega
        · have e1 : back + 1 + j = back + (j + 1) := by omega
          have e2 : pos + 1 + j = pos + (j + 1) := by omega
          rw [e1, e2] at this
          exact this.2
    · rw [if_neg hc] at hj
      omega

theorem matchLen_le_maxMatch (s : List Nat) (back pos : Nat) :
    matchLen s back pos ≤ maxMatch :=
  le_trans (matchLenAux_le s back pos _) (Nat.min_le_left _ _)

theorem matchLen_le_length (s : List Nat) (back pos : Nat) (h : pos ≤ s.length) :
    pos + matchLen s back pos ≤ s.length := by
  have := le_trans (matchLenAux_le s back pos (min maxMatch (s.length - pos)))
    (Nat.min_le_right _ _)
  unfold matchLen
  omega

theorem matchLen_spec (s : List Nat) (back pos j : Nat)
    (hj : j < matchLen s back pos) :
    pos + j < s.length ∧ s.getD (back + j) 0 = s.getD (pos + j) 0 :=
  matchLenAux_spec s _ back pos j hj

/-! ### Best-candidate lemmas -/

/-- A `(distance, length)` pair is a valid candidate at `pos`: distance at
least 1, no further back than the stream start or the window, length the
match length at that distance. -/
def goodCandidate (s : List Nat) (pos : Nat) (dl : Nat × Nat) : Prop :=
  1 ≤ dl.1 ∧ dl.1 ≤ pos ∧ dl.1 ≤ windowSize ∧ dl.2 = matchLen s (pos - dl.1) pos

theorem candidateDistances_mem (level pos d : Nat)
    (hd : d ∈ candidateDistances level pos) :
    1 ≤ d ∧ d ≤ pos ∧ d ≤ windowSize := by
  simp only [candidateDistances, List.mem_map, List.mem_range] at hd
  obtain ⟨i, hi, rfl⟩ := hd
  omega

theorem foldl_considerCandidate (s : List Nat) (pos : Nat) (l : List Nat)
    (init : Nat × Nat)
    (hinit : init = (0, 0) ∨ goodCandidate s pos init)
    (hl : ∀ d ∈ l, 1 ≤ d ∧ d ≤ pos ∧ d ≤ windowSize) :
    l.foldl (considerCandidate s pos) init = (0, 0)
      ∨ goodCandidate s pos (l.foldl (considerCandidate s pos) init) := by
  induction l generalizing init with
  | nil => simpa using hinit
  | cons d l ih =>
    simp only [List.foldl_cons]
    apply ih
    · simp only [considerCandidate]
      by_cases hc : init.2 < matchLen s (pos - d) pos
      · rw [if_pos hc]
        right
        have hd' := hl d (by simp)
        exact ⟨hd'.1, hd'.2.1, hd'.2.2, rfl⟩
      · rw [if_neg hc]
        exact hinit
    · intro d' hd'
      exact hl d' (by simp [hd'])

theorem bestMatch_spec (s : List Nat) (level pos : Nat)
    (h : minMatch ≤ (bestMatch s level pos).2) :
    goodCandidate s pos (bestMatch s level pos) := by
  have := foldl_considerCandidate s pos (candidateDistances level pos) (0, 0)
    (Or.inl rfl) (fun d hd => candidateDistances_mem level pos d hd)
  unfold bestMatch at h ⊢
  rcases this with h0 | hg
  · rw [h0] at h
    simp [minMatch] at h
  · exact hg

/-! ### Token-stream invariants (claim C6) -/

/-- Decidable check that a token stream emitted from output position `pos`
only contains matches whose distance is at least 1, at most the bytes already
produced, at most the window size, and whose length is within the minimum and
maximum match bounds. -/
def tokensValid : Nat → List Token → Bool
  | _, [] => true
  | pos, Token.literal _ :: ts => tokensValid (pos + 1) ts
  | pos, Token.backref d l :: ts =>
    decide (1 ≤ d ∧ d ≤ pos ∧ d ≤ windowSize ∧ minMatch ≤ l ∧ l ≤ maxMatch)
      && tokensValid (pos + l) ts

theorem tokenizeAux_valid (s : List Nat) (level : Nat) (fuel : Nat) :
    ∀ pos, tokensValid pos (tokenizeAux s level pos fuel) = true := by
  induction fuel with
  | zero => intro pos; simp [tokenizeAux, tokensValid]
  | succ fuel ih =>
    intro pos
    simp only [tokenizeAux]
    by_cases hp : pos < s.length
    · rw [if_pos hp]
      by_cases hm : minMatch ≤ (bestMatch s level pos).2
      · rw [if_pos hm]
        have hg := bestMatch_spec s level pos hm
        have hmax : (bestMatch s level pos).2 ≤ maxMatch := by
          rw [hg.2.2.2]
          exact matchLen_le_maxMatch s _ pos
        simp only [tokensValid, Bool.and_eq_true, decide_eq_true_eq]
        exact ⟨⟨hg.1, hg.2.1, hg.2.2.1, hm, hmax⟩, ih _⟩
      · rw [if_neg hm]
        simpa only [tokensValid] using ih (pos + 1)
    · rw [if_neg hp]
      simp [tokensValid]

/-- Claim C6: every `Match(distance, length)` token the LZ77 matcher emits
satisfies `1 ≤ distance`, `distance` at most the bytes already produced at
that point, `distance` at most the window size, and `length` within the
minimum/maximum match bounds; and whenever the best candidate at a position
falls short of the minimum length threshold, a `Literal` is emitted there
instead. -/
theorem matcher_tokens_valid (s : List Nat) (level : Nat) :
    tokensValid 0 (tokenize s level) = true
    ∧ ∀ pos fuel, pos < s.length → (bestMatch s level pos).2 < minMatch →
        tokenizeAux s level pos (fuel + 1)
          = Token.literal (s.getD pos 0) :: tokenizeAux s level (pos + 1) fuel := by
  constructor
  · exact tokenizeAux_valid s level s.length 0
  · intro pos fuel hp hm
    simp only [tokenizeAux, if_pos hp]
    rw [if_neg (by omega)]

/-- Claim C6 witness: concrete instances of both conjuncts. -/
theorem matcher_tokens_valid_witness :
    tokensValid 0 (tokenize [7, 7, 7, 7, 7, 9] 6) = true
    ∧ tokenizeAux [9, 9] 6 0 2 = Token.literal 9 :: tokenizeAux [9, 9] 6 1 1 :=
  ⟨(matcher_tokens_valid [7, 7, 7, 7, 7, 9] 6).1,
   (matcher_tokens_valid [9, 9] 6).2 0 1 (by decide) (by decide)⟩

/-! ### Decode correctness for the matcher's tokens -/

theorem getD_take (s : List Nat) (n i : Nat) (h : i < n) :
    (s.take n).getD i 0 = s.getD i 0 := by
  simp [List.getD_eq_getElem?_getD, List.getElem?_take, h]

theorem take_succ_getD (s : List Nat) (pos : Nat) (h : pos < s.length) :
    s.take (pos + 1) = s.take pos ++ [s.getD pos 0] := by
  rw [List.take_succ]
  have hsome : s[pos]? = some s[pos] := List.getElem?_eq_getElem h
  simp [hsome, List.getD_eq_getElem?_getD]

theorem copyBack_take (s : List Nat) (d : Nat) (hd1 : 1 ≤ d) (l : Nat) :
    ∀ pos, d ≤ pos →
    (∀ j, j < l → pos + j < s.length
      ∧ s.getD (pos - d + j) 0 = s.getD (pos + j) 0) →
    copyBack (s.take pos) d l = s.take (pos + l) := by
  induction l with
  | zero => intro pos _ _; simp [copyBack]
  | succ l ih =>
    intro pos hdp hmatch
    have hpos : pos < s.length := by
      have := (hmatch 0 (by omega)).1
      omega
    have hlen : (s.take pos).length = pos := by
      rw [List.length_take]
      omega
    have hbyte : (s.take pos).getD ((s.take pos).length - d) 0 = s.getD pos 0 := by
      rw [hlen, getD_take s pos (pos - d) (by omega)]
      have := (hmatch 0 (by omega)).2
      simpa using this
    simp only [copyBack, hbyte]
    rw [← take_succ_getD s pos hpos]
    have step := ih (pos + 1) (by omega) (fun j hj => by
      have h1 := hmatch (j + 1) (by omega)
      constructor
      · omega
      · have e1 : pos - d + (j + 1) = pos + 1 - d + j := by omega
        have e2 : pos + (j + 1) = pos + 1 + j := by omega
        rw [e1, e2] at h1
        exact h1.2)
    rw [step]
    congr 1
    omega

theorem decodeTokens_tokenizeAux (s : List Nat) (level : Nat) (fuel : Nat) :
    ∀ pos, s.length ≤ pos + fuel → pos ≤ s.length →
    decodeTokens (s.take pos) (tokenizeAux s level pos fuel) = .ok s := by
  induction fuel with
  | zero =>
    intro pos h1 h2
    have : pos = s.length := by omega
    simp [tokenizeAux, decodeTokens, this, List.take_length]
  | succ fuel ih =>
    intro pos h1 h2
    simp only [tokenizeAux]
    by_cases hp : pos < s.length
    · rw [if_pos hp]
      by_cases hm : minMatch ≤ (bestMatch s level pos).2
      · rw [if_pos hm]
        obtain ⟨hg1, hg2, hg3, hg4⟩ := bestMatch_spec s level pos hm
        set d := (bestMatch s level pos).1 with hdd
        set l := (bestMatch s level pos).2 with hll
        have hlenok : (s.take pos).length = pos := by
          rw [List.length_take]; omega
        simp only [decodeTokens]
        rw [if_pos (by rw [hlenok]; exact ⟨hg1, hg2⟩)]
        have hcb : copyBack (s.take pos) d l = s.take (pos + l) := by
          apply copyBack_take s d hg1 l pos hg2
          intro j hj
          rw [hg4] at hj
          exact matchLen_spec s (pos - d) pos j hj
        rw [hcb]
        apply ih (pos + l)
        · have : minMatch ≤ l := hm
          have hmm : 3 ≤ l := by simpa [minMatch] using this
          omega
        · rw [hg4]
          exact matchLen_le_length s (pos - d) pos (by omega)
      · rw [if_neg hm]
        simp only [decodeTokens]
        rw [← take_succ_getD s pos hp]
        apply ih (pos + 1) (by omega) (by omega)
    · rw [if_neg hp]
      have : pos = s.length := by omega
      simp [decodeTokens, this, List.take_length]

theorem decodeTokens_tokenize (s : List Nat) (level : Nat) :
    decodeTokens [] (tokenize s level) = .ok s := by
  have := decodeTokens_tokenizeAux s level s.length 0 (by omega) (by omega)
  simpa [tokenize] using this

/-! ### Serialization round-trip -/

theorem parseTokens_encodeTokens (ts : List Token) :
    ∀ pos, tokensValid pos ts = true →
    ∀ fuel r, (encodeTokens ts).length ≤ fuel →
    parseTokens fuel (encodeTokens ts ++ r) = .ok (ts, r) := by
  induction ts with
  | nil =>
    intro pos _ fuel r hfuel
    simp only [encodeTokens, List.length_cons, List.length_nil] at hfuel
    cases fuel with
    | zero => omega
    | succ f => simp [encodeTokens, parseTokens]
  | cons t ts ih =>
    intro pos hvalid fuel r hfuel
    cases t with
    | literal b =>
      simp only [encodeTokens, encodeToken, List.length_append, List.length_cons,
        List.length_nil] at hfuel
      cases fuel with
      | zero => omega
      | succ f =>
        have hrec := ih (pos + 1) (by simpa [tokensValid] using hvalid) f r
          (by omega)
        simp [encodeTokens, encodeToken, parseTokens, hrec]
    | backref d l =>
      simp only [tokensValid, Bool.and_eq_true, decide_eq_true_eq] at hvalid
      obtain ⟨⟨hd1, _, _, hl1, _⟩, hrest⟩ := hvalid
      simp only [encodeTokens, encodeToken, List.length_append, List.length_cons,
        List.length_nil] at hfuel
      cases fuel with
      | zero => omega
      | succ f =>
        have hrec := ih (pos + l) hrest f r (by omega)
        have hd : (d - 1) % 256 + 256 * ((d - 1) / 256) + 1 = d := by
          rw [Nat.mod_add_div]
          omega
        have hl : l - minMatch + minMatch = l := by
          omega
        simp [encodeTokens, encodeToken, parseTokens, hrec, hd, hl]

theorem parseTokens_truncated (ts : List Token) :
    ∀ t fuel, t < (encodeTokens ts).length →
    parseTokens fuel ((encodeTokens ts).take t) = .error .unexpectedEnd := by
  induction ts with
  | nil =>
    intro t fuel ht
    simp only [encodeTokens, List.length_cons, List.length_nil] at ht
    have ht0 : t = 0 := by omega
    subst ht0
    cases fuel <;> simp [parseTokens]
  | cons t0 ts ih =>
    intro t fuel ht
    cases t0 with
    | literal b =>
      simp only [encodeTokens, encodeToken, List.length_append, List.length_cons,
        List.length_nil] at ht
      match t with
      | 0 => cases fuel <;> simp [parseTokens]
      | 1 =>
        cases fuel with
        | zero => simp [parseTokens]
        | succ f => simp [encodeTokens, encodeToken, parseTokens]
      | t'' + 2 =>
        cases fuel with
        | zero => simp [parseTokens]
        | succ f =>
          have hrec := ih t'' f (by omega)
          simp [encodeTokens, encodeToken, parseTokens, hrec]
    | backref d l =>
      simp only [encodeTokens, encodeToken, List.length_append, List.length_cons,
        List.length_nil] at ht
      match t with
      | 0 => cases fuel <;> simp [parseTokens]
      | 1 =>
        cases fuel with
        | zero => simp [parseTokens]
        | succ f => simp [encodeTokens, encodeToken, parseTokens]
      | 2 =>
        cases fuel with
        | zero => simp [parseTokens]
        | succ f => simp [encodeTokens, encodeToken, parseTokens]
      | 3 =>
        cases fuel with
        | zero => simp [parseTokens]
        | succ f => simp [encodeTokens, encodeToken, parseTokens]
      | t'' + 4 =>
        cases fuel with
        | zero => simp [parseTokens]
        | succ f =>
          have hrec := ih t'' f (by omega)
          simp [encodeTokens, encodeToken, parseTokens, hrec]

/-! ### Container round-trip -/

theorem pow256_4 : 256 ^ 4 = 4294967296 := by norm_num

theorem take_append_of_length (A X : List Nat) (k : Nat) (h : A.length = k) :
    (A ++ X).take k = A := by
  subst h
  exact List.take_left A X

theorem drop_append_of_length (A X : List Nat) (k : Nat) (h : A.length = k) :
    (A ++ X).drop k = X := by
  subst h
  exact List.drop_left A X

theorem adlerUpdate_bounds (s : List Nat) :
    ∀ st : AdlerState, st.a < adlerBase → st.b < adlerBase →
    (adlerUpdate st s).a < adlerBase ∧ (adlerUpdate st s).b < adlerBase := by
  induction s with
  | nil =>
    intro st h1 h2
    exact ⟨h1, h2⟩
  | cons b s ih =>
    intro st h1 h2
    have hstep : adlerUpdate st (b :: s) = adlerUpdate (adlerStep st b) s := by
      simp [adlerUpdate]
    rw [hstep]
    apply ih
    · exact Nat.mod_lt _ (by simp [adlerBase])
    · exact Nat.mod_lt _ (by simp [adlerBase])

theorem checksum_lt (s : List Nat) : checksum s < 4294967296 := by
  have h := adlerUpdate_bounds s adlerInit (by simp [adlerInit, adlerBase])
    (by simp [adlerInit, adlerBase])
  unfold checksum checksumOf
  unfold adlerBase at h
  omega

theorem parseStored_storedPayload (out s r : List Nat)
    (h : s.length < 4294967296) :
    parseStored out (storedPayload s ++ r) = .ok (out ++ s, r) := by
  have hA : (toLE 4 s.length).length = 4 := toLE_length 4 _
  have hB : (toLE 4 (onesComplement32 s.length)).length = 4 := toLE_length 4 _
  have hform : storedPayload s ++ r
      = toLE 4 s.length ++ (toLE 4 (onesComplement32 s.length) ++ (s ++ r)) := by
    simp [storedPayload]
  rw [hform]
  have h1 : (toLE 4 s.length
      ++ (toLE 4 (onesComplement32 s.length) ++ (s ++ r))).take 4
      = toLE 4 s.length := take_append_of_length _ _ 4 hA
  have h2 : (toLE 4 s.length
      ++ (toLE 4 (onesComplement32 s.length) ++ (s ++ r))).drop 4
      = toLE 4 (onesComplement32 s.length) ++ (s ++ r) :=
    drop_append_of_length _ _ 4 hA
  have h3 : (toLE 4 (onesComplement32 s.length) ++ (s ++ r)).take 4
      = toLE 4 (onesComplement32 s.length) := take_append_of_length _ _ 4 hB
  have hfromA : fromLE (toLE 4 s.length) = s.length := by
    rw [fromLE_toLE, pow256_4]
    exact Nat.mod_eq_of_lt h
  have hfromB : fromLE (toLE 4 (onesComplement32 s.length))
      = onesComplement32 s.length := by
    rw [fromLE_toLE, pow256_4]
    apply Nat.mod_eq_of_lt
    unfold onesComplement32
    omega
  have h4 : (toLE 4 s.length
      ++ (toLE 4 (onesComplement32 s.length) ++ (s ++ r))).drop 8 = s ++ r := by
    have : (8 : Nat) = 4 + 4 := rfl
    rw [this, ← List.drop_drop, h2]
    exact drop_append_of_length _ _ 4 hB
  have hlen : (toLE 4 s.length
      ++ (toLE 4 (onesComplement32 s.length) ++ (s ++ r))).length
      = 8 + s.length + r.length := by
    simp [hA, hB]
    omega
  unfold parseStored
  rw [if_neg (by rw [hlen]; omega)]
  simp only [h1, h2, h3, h4, hfromA, hfromB]
  rw [if_neg (by simp)]
  rw [if_neg (by simp)]
  rw [take_append_of_length s r s.length rfl, drop_append_of_length s r s.length rfl]

theorem parseBlockPayload_coded (level : Nat) (s r : List Nat) :
    parseBlockPayload 1 [] (compressedPayload level s ++ r) = .ok (s, r) := by
  have hv : tokensValid 0 (tokenize s level) = true :=
    tokenizeAux_valid s level s.length 0
  have hfuel : (encodeTokens (tokenize s level)).length
      ≤ (compressedPayload level s ++ r).length := by
    simp [compressedPayload]
  have hparse := parseTokens_encodeTokens (tokenize s level) 0 hv
    (compressedPayload level s ++ r).length r hfuel
  unfold parseBlockPayload
  rw [if_neg (by omega), if_pos rfl]
  unfold compressedPayload at hparse ⊢
  rw [hparse]
  simp [decodeTokens_tokenize s level]

theorem parseBlocks_blockFor (level : Nat) (s r : List Nat)
    (h : s.length < 4294967296) (fuel : Nat) :
    parseBlocks (fuel + 1) [] (blockFor level s ++ r) = .ok (s, r) := by
  unfold blockFor
  by_cases hl : level = 0
  · rw [if_pos hl]
    have hform : (1 :: 0 :: storedPayload s) ++ r
        = 1 :: 0 :: (storedPayload s ++ r) := by simp
    rw [hform]
    simp only [parseBlocks]
    rw [if_pos (by omega)]
    have hp : parseBlockPayload 0 [] (storedPayload s ++ r) = .ok (s, r) := by
      unfold parseBlockPayload
      rw [if_pos rfl]
      have := parseStored_storedPayload [] s r h
      simpa using this
    rw [hp]
    simp
  · rw [if_neg hl]
    by_cases hc : (compressedPayload level s).length < (storedPayload s).length
    · rw [if_pos hc]
      have hform : (1 :: 1 :: compressedPayload level s) ++ r
          = 1 :: 1 :: (compressedPayload level s ++ r) := by simp
      rw [hform]
      simp only [parseBlocks]
      rw [if_pos (by omega)]
      rw [parseBlockPayload_coded level s r]
      simp
    · rw [if_neg hc]
      have hform : (1 :: 0 :: storedPayload s) ++ r
          = 1 :: 0 :: (storedPayload s ++ r) := by simp
      rw [hform]
      simp only [parseBlocks]
      rw [if_pos (by omega)]
      have hp : parseBlockPayload 0 [] (storedPayload s ++ r) = .ok (s, r) := by
        unfold parseBlockPayload
        rw [if_pos rfl]
        have := parseStored_storedPayload [] s r h
        simpa using this
      rw [hp]
      simp

/-- Claim C3: decompressing the result of compressing `S` yields exactly `S`,
at every compression level, for every byte sequence whose length fits the
32-bit length fields of the modelled container (empty, single-byte and
longer-than-window sequences included). -/
theorem decompress_compress (level : Nat) (s : List Nat)
    (h : s.length < 4294967296) :
    decompress (compress level s) = .ok s := by
  have hck : checksum s < 4294967296 := checksum_lt s
  have hform : compress level s
      = 8 :: 7 :: (blockFor level s ++ trailerBytes s) := by
    simp [compress, headerBytes]
  rw [hform]
  simp only [decompress]
  rw [if_pos (⟨trivial, trivial⟩ : True ∧ True)]
  have hblocks := parseBlocks_blockFor level s (trailerBytes s) h
    (blockFor level s ++ trailerBytes s).length
  rw [hblocks]
  have hT1 : (trailerBytes s).take 4 = toLE 4 (checksum s) :=
    take_append_of_length _ _ 4 (toLE_length 4 _)
  have hT2 : (trailerBytes s).drop 4 = toLE 4 s.length :=
    drop_append_of_length _ _ 4 (toLE_length 4 _)
  have hTlen : (trailerBytes s).length = 8 := by
    simp [trailerBytes, toLE_length]
  have hc1 : fromLE (toLE 4 (checksum s)) = checksum s := by
    rw [fromLE_toLE, pow256_4]
    exact Nat.mod_eq_of_lt hck
  have hc2 : fromLE (toLE 4 s.length) = s.length % 4294967296 := by
    rw [fromLE_toLE, pow256_4]
  simp [hT1, hT2, hTlen, hc1, hc2]

/-- Claim C3 witness: a concrete round-trip. -/
theorem decompress_compress_witness :
    ([1, 2, 3, 1, 2, 3, 1, 2, 3, 7] : List Nat).length < 4294967296
    ∧ decompress (compress 6 [1, 2, 3, 1, 2, 3, 1, 2, 3, 7])
        = .ok [1, 2, 3, 1, 2, 3, 1, 2, 3, 7] :=
  ⟨by decide, decompress_compress 6 [1, 2, 3, 1, 2, 3, 1, 2, 3, 7] (by decide)⟩

/-! ### Level monotonicity (claim C7) -/

/-- Claim C7: for every input and every compression level above 0, the
compressed output is never larger than the level-0 (stored) output. -/
theorem compress_level_le_stored (level : Nat) (h : 0 < level) (s : List Nat) :
    (compress level s).length ≤ (compress 0 s).length := by
  unfold compress blockFor
  rw [if_neg (by omega), if_pos rfl]
  by_cases hc : (compressedPayload level s).length < (storedPayload s).length
  · rw [if_pos hc]
    simp only [List.length_append, List.length_cons]
    omega
  · rw [if_neg hc]

/-- Claim C7 witness: a concrete level and input. -/
theorem compress_level_le_stored_witness :
    0 < 6 ∧ (compress 6 [5, 5, 5, 5, 5, 5, 5, 5]).length
      ≤ (compress 0 [5, 5, 5, 5, 5, 5, 5, 5]).length :=
  ⟨by decide, compress_level_le_stored 6 (by decide) [5, 5, 5, 5, 5, 5, 5, 5]⟩

/-! ### Compression-side error taxonomy (claim C8) -/

/-- Claim C8: the compression path cannot fail on valid input: `initCompress`
succeeds exactly on in-range arguments and its only error value is
`InvalidArgument`; a `process` call on a compression stream always returns a
typed `ok` result (errors are never swallowed because results are typed), and
a too-small output buffer is reported through the `needMoreSpace` status,
distinct from the error type, while a large-enough buffer completes with
`done`. -/
theorem compression_cannot_fail :
    (∀ level windowBits strategy : Int,
      validCompressArgs level windowBits strategy →
      initCompress level windowBits strategy
        = .ok ⟨level.toNat, windowBits.toNat, strategy.toNat⟩)
    ∧ (∀ level windowBits strategy : Int,
      ¬ validCompressArgs level windowBits strategy →
      initCompress level windowBits strategy = .error .invalidArgument)
    ∧ (∀ (level windowBits strategy : Int) (e : CompressError),
      initCompress level windowBits strategy = .error e →
      e = CompressError.invalidArgument)
    ∧ (∀ (st : CompressState) (input : List Nat) (outCap : Nat),
      ∃ res, processCompress st input outCap = .ok res)
    ∧ (∀ (st : CompressState) (input : List Nat) (outCap : Nat),
      (compress st.level input).length ≤ outCap →
      processCompress st input outCap
        = .ok (ProcessStatus.done, compress st.level input))
    ∧ (∀ (st : CompressState) (input : List Nat) (outCap : Nat),
      outCap < (compress st.level input).length →
      processCompress st input outCap = .ok (ProcessStatus.needMoreSpace, [])) := by
  refine ⟨?_, ?_, ?_, ?_, ?_, ?_⟩
  · intro level windowBits strategy hv
    simp [initCompress, hv]
  · intro level windowBits strategy hv
    simp [initCompress, hv]
  · intro level windowBits strategy e he
    cases e
    rfl
  · intro st input outCap
    unfold processCompress
    by_cases hcap : (compress st.level input).length ≤ outCap
    · exact ⟨_, by rw [if_pos hcap]⟩
    · exact ⟨_, by rw [if_neg hcap]⟩
  · intro st input outCap hcap
    simp [processCompress, hcap]
  · intro st input outCap hcap
    simp only [processCompress]
    rw [if_neg (by omega)]

/-- Claim C8 witness: concrete instances of every conjunct. -/
theorem compression_cannot_fail_witness :
    initCompress 6 15 0 = .ok ⟨6, 15, 0⟩
    ∧ initCompress 99 15 0 = .error .invalidArgument
    ∧ CompressError.invalidArgument = CompressError.invalidArgument
    ∧ (∃ res, processCompress ⟨6, 15, 0⟩ [1, 2, 3] 100 = .ok res)
    ∧ processCompress ⟨6, 15, 0⟩ [1, 2, 3] 100
        = .ok (ProcessStatus.done, compress 6 [1, 2, 3])
    ∧ processCompress ⟨6, 15, 0⟩ [1, 2, 3] 1
        = .ok (ProcessStatus.needMoreSpace, []) :=
  ⟨compression_cannot_fail.1 6 15 0 (by decide),
   compression_cannot_fail.2.1 99 15 0 (by decide),
   compression_cannot_fail.2.2.1 99 15 0 CompressError.invalidArgument
     (compression_cannot_fail.2.1 99 15 0 (by decide)),
   compression_cannot_fail.2.2.2.1 ⟨6, 15, 0⟩ [1, 2, 3] 100,
   compression_cannot_fail.2.2.2.2.1 ⟨6, 15, 0⟩ [1, 2, 3] 100 (by decide),
   compression_cannot_fail.2.2.2.2.2 ⟨6, 15, 0⟩ [1, 2, 3] 1 (by decide)⟩

/-! ### Corruption detection: truncation (claim C5, part 2) -/

theorem blockFor_shape (level : Nat) (s : List Nat) :
    blockFor level s = 1 :: 0 :: storedPayload s
    ∨ blockFor level s = 1 :: 1 :: compressedPayload level s := by
  unfold blockFor
  by_cases hl : level = 0
  · rw [if_pos hl]
    exact Or.inl rfl
  · rw [if_neg hl]
    by_cases hc : (compressedPayload level s).length < (storedPayload s).length
    · rw [if_pos hc]
      exact Or.inr rfl
    · rw [if_neg hc]
      exact Or.inl rfl

theorem parseStored_eq (out s X : List Nat) (h : s.length < 4294967296) :
    parseStored out
        (toLE 4 s.length ++ (toLE 4 (onesComplement32 s.length) ++ X))
      = if X.length < s.length then .error .unexpectedEnd
        else .ok (out ++ X.take s.length, X.drop s.length) := by
  have hA : (toLE 4 s.length).length = 4 := toLE_length 4 _
  have hB : (toLE 4 (onesComplement32 s.length)).length = 4 := toLE_length 4 _
  have h1 : (toLE 4 s.length
      ++ (toLE 4 (onesComplement32 s.length) ++ X)).take 4
      = toLE 4 s.length := take_append_of_length _ _ 4 hA
  have h2 : (toLE 4 s.length
      ++ (toLE 4 (onesComplement32 s.length) ++ X)).drop 4
      = toLE 4 (onesComplement32 s.length) ++ X :=
    drop_append_of_length _ _ 4 hA
  have h3 : (toLE 4 (onesComplement32 s.length) ++ X).take 4
      = toLE 4 (onesComplement32 s.length) := take_append_of_length _ _ 4 hB
  have hfromA : fromLE (toLE 4 s.length) = s.length := by
    rw [fromLE_toLE, pow256_4]
    exact Nat.mod_eq_of_lt h
  have hfromB : fromLE (toLE 4 (onesComplement32 s.length))
      = onesComplement32 s.length := by
    rw [fromLE_toLE, pow256_4]
    apply Nat.mod_eq_of_lt
    unfold onesComplement32
    omega
  have h4 : (toLE 4 s.length
      ++ (toLE 4 (onesComplement32 s.length) ++ X)).drop 8 = X := by
    have h8 : (8 : Nat) = 4 + 4 := rfl
    rw [h8, ← List.drop_drop, h2]
    exact drop_append_of_length _ _ 4 hB
  have hlen : (toLE 4 s.length
      ++ (toLE 4 (onesComplement32 s.length) ++ X)).length
      = 8 + X.length := by
    simp [hA, hB]
    omega
  unfold parseStored
  rw [if_neg (by rw [hlen]; omega)]
  simp only [h1, h2, h3, h4, hfromA, hfromB]
  rw [if_neg (by simp)]

theorem storedPayload_assoc (s X : List Nat) :
    storedPayload s ++ X
      = toLE 4 s.length ++ (toLE 4 (onesComplement32 s.length) ++ (s ++ X)) := by
  simp [storedPayload]

theorem parseBlocks_truncated (level : Nat) (s : List Nat)
    (h : s.length < 4294967296) (t fuel : Nat)
    (ht : t < (blockFor level s ++ trailerBytes s).length) :
    parseBlocks (fuel + 1) [] ((blockFor level s ++ trailerBytes s).take t)
        = .error .unexpectedEnd
    ∨ ∃ out r,
        parseBlocks (fuel + 1) [] ((blockFor level s ++ trailerBytes s).take t)
          = .ok (out, r) ∧ r.length < 8 := by
  have hTlen : (trailerBytes s).length = 8 := by
    simp [trailerBytes, toLE_length]
  rcases blockFor_shape level s with hb | hb
  · -- stored block
    have hPlen : (storedPayload s).length = 8 + s.length := by
      simp [storedPayload, toLE_length]
      omega
    rw [hb] at ht ⊢
    match t with
    | 0 =>
      left
      simp [parseBlocks]
    | 1 =>
      left
      simp [parseBlocks]
    | j + 2 =>
      have hj : j < 16 + s.length := by
        simp only [List.cons_append, List.length_cons, List.length_append,
          hPlen, hTlen] at ht
        omega
      have htake : ((1 :: 0 :: storedPayload s) ++ trailerBytes s).take (j + 2)
          = 1 :: 0 :: (storedPayload s ++ trailerBytes s).take j := by
        simp [List.take]
      rw [htake]
      simp only [parseBlocks]
      rw [if_pos (by omega)]
      by_cases hj8 : j < 8
      · -- truncated inside the length fields
        left
        have hrest : ((storedPayload s ++ trailerBytes s).take j).length = j := by
          rw [List.length_take]
          simp [hPlen, hTlen]
          omega
        have hpp : parseBlockPayload 0 [] ((storedPayload s ++ trailerBytes s).take j)
            = .error .unexpectedEnd := by
          unfold parseBlockPayload
          rw [if_pos rfl]
          unfold parseStored
          rw [if_pos (by omega)]
        rw [hpp]
      · -- the 8 prefix bytes are intact
        have hsplit : (storedPayload s ++ trailerBytes s).take j
            = toLE 4 s.length ++ (toLE 4 (onesComplement32 s.length)
                ++ (s ++ trailerBytes s).take (j - 8)) := by
          have hAB : ((toLE 4 s.length ++ toLE 4 (onesComplement32 s.length))).length
              = 8 := by simp [toLE_length]
          have hform : storedPayload s ++ trailerBytes s
              = (toLE 4 s.length ++ toLE 4 (onesComplement32 s.length))
                ++ (s ++ trailerBytes s) := by
            simp [storedPayload]
          rw [hform, List.take_append_eq_append_take, hAB,
            List.take_of_length_le (by rw [hAB]; omega)]
          simp
        rw [hsplit]
        have hXlen : ((s ++ trailerBytes s).take (j - 8)).length = j - 8 := by
          rw [List.length_take]
          simp [hTlen]
          omega
        by_cases hjs : j - 8 < s.length
        · left
          have hpp : parseBlockPayload 0 []
              (toLE 4 s.length ++ (toLE 4 (onesComplement32 s.length)
                ++ (s ++ trailerBytes s).take (j - 8)))
              = .error .unexpectedEnd := by
            unfold parseBlockPayload
            rw [if_pos rfl, parseStored_eq [] s _ h, if_pos (by omega)]
          rw [hpp]
        · right
          refine ⟨((s ++ trailerBytes s).take (j - 8)).take s.length,
            ((s ++ trailerBytes s).take (j - 8)).drop s.length, ?_, ?_⟩
          · have hpp : parseBlockPayload 0 []
                (toLE 4 s.length ++ (toLE 4 (onesComplement32 s.length)
                  ++ (s ++ trailerBytes s).take (j - 8)))
                = .ok (((s ++ trailerBytes s).take (j - 8)).take s.length,
                    ((s ++ trailerBytes s).take (j - 8)).drop s.length) := by
              unfold parseBlockPayload
              rw [if_pos rfl, parseStored_eq [] s _ h, if_neg (by omega)]
              simp
            rw [hpp]
            simp
          · rw [List.length_drop, hXlen]
            omega
  · -- coded block
    have hPdef : compressedPayload level s = encodeTokens (tokenize s level) := rfl
    rw [hb] at ht ⊢
    match t with
    | 0 =>
      left
      simp [parseBlocks]
    | 1 =>
      left
      simp [parseBlocks]
    | j + 2 =>
      have hj : j < (compressedPayload level s).length + 8 := by
        simp only [List.cons_append, List.length_cons, List.length_append,
          hTlen] at ht
        omega
      have htake : ((1 :: 1 :: compressedPayload level s) ++ trailerBytes s).take (j + 2)
          = 1 :: 1 :: (compressedPayload level s ++ trailerBytes s).take j := by
        simp [List.take]
      rw [htake]
      simp only [parseBlocks]
      rw [if_pos (by omega)]
      by_cases hjP : j < (compressedPayload level s).length
      · left
        have hsplit : (compressedPayload level s ++ trailerBytes s).take j
            = (compressedPayload level s).take j := by
          rw [List.take_append_eq_append_take,
            Nat.sub_eq_zero_of_le (by omega), List.take_zero, List.append_nil]
        rw [hsplit]
        have htr := parseTokens_truncated (tokenize s level) j
          ((compressedPayload level s).take j).length (by rw [← hPdef]; omega)
        have hpp : parseBlockPayload 1 [] ((compressedPayload level s).take j)
            = .error .unexpectedEnd := by
          unfold parseBlockPayload
          rw [if_neg (by omega), if_pos rfl]
          rw [hPdef] at htr ⊢
          rw [htr]
        rw [hpp]
      · right
        have hsplit : (compressedPayload level s ++ trailerBytes s).take j
            = compressedPayload level s
              ++ (trailerBytes s).take (j - (compressedPayload level s).length) := by
          rw [List.take_append_eq_append_take,
            List.take_of_length_le (by omega)]
        rw [hsplit]
        refine ⟨s, (trailerBytes s).take (j - (compressedPayload level s).length),
          ?_, ?_⟩
        · rw [parseBlockPayload_coded level s _]
          simp
        · rw [List.length_take]
          simp [hTlen]
          omega

theorem decompress_truncated_all (level : Nat) (s : List Nat)
    (h : s.length < 4294967296) (t : Nat)
    (ht : t < (compress level s).length) :
    decompress ((compress level s).take t) = .error .unexpectedEnd := by
  have hform : compress level s
      = 8 :: 7 :: (blockFor level s ++ trailerBytes s) := by
    simp [compress, headerBytes]
  rw [hform] at ht ⊢
  match t with
  | 0 => simp [decompress]
  | 1 => simp [decompress, List.take]
  | j + 2 =>
    have ht' : j < (blockFor level s ++ trailerBytes s).length := by
      simp only [List.length_cons] at ht
      omega
    have htake : (8 :: 7 :: (blockFor level s ++ trailerBytes s)).take (j + 2)
        = 8 :: 7 :: (blockFor level s ++ trailerBytes s).take j := by
      simp [List.take]
    rw [htake]
    simp only [decompress]
    rw [if_pos (⟨trivial, trivial⟩ : True ∧ True)]
    rcases parseBlocks_truncated level s h j
      ((blockFor level s ++ trailerBytes s).take j).length ht' with he | ⟨out, r, hok, hr⟩
    · rw [he]
    · rw [hok]
      simp [hr]

/-! ### Corruption detection: trailer bit flips (claim C5, part 1) -/

theorem xor_two_pow_ne (b k : Nat) : b ^^^ 2 ^ k ≠ b := by
  intro hEq
  have h2 : b ^^^ (b ^^^ 2 ^ k) = b ^^^ b := congrArg (fun x => b ^^^ x) hEq
  rw [Nat.xor_cancel_left, Nat.xor_self] at h2
  have := Nat.two_pow_pos k
  omega

theorem getD_mem_of_lt (l : List Nat) (j : Nat) (h : j < l.length) :
    l.getD j 0 ∈ l := by
  rw [List.getD_eq_getElem?_getD, List.getElem?_eq_getElem h]
  exact List.getElem_mem h

theorem getD_set_self (l : List Nat) (j : Nat) (h : j < l.length) (v : Nat) :
    (l.set j v).getD j 0 = v := by
  have hlen : j < (l.set j v).length := by simpa using h
  rw [List.getD_eq_getElem?_getD, List.getElem?_eq_getElem hlen,
    List.getElem_set_self]
  rfl

theorem trailerBytes_lt (s : List Nat) : ∀ b ∈ trailerBytes s, b < 256 := by
  intro b hb
  unfold trailerBytes at hb
  rcases List.mem_append.mp hb with h | h
  · exact toLE_bytes_lt 4 _ b h
  · exact toLE_bytes_lt 4 _ b h

theorem decompress_flip_trailer (level : Nat) (s : List Nat)
    (h : s.length < 4294967296) (i k : Nat) (hk : k < 8)
    (hi1 : (compress level s).length - 8 ≤ i)
    (hi2 : i < (compress level s).length) :
    decompress (flipBitAt (compress level s) i k)
      = .error .checksumMismatch := by
  have hTlen : (trailerBytes s).length = 8 := by
    simp [trailerBytes, toLE_length]
  have hpre : compress level s
      = (headerBytes ++ blockFor level s) ++ trailerBytes s := by
    simp [compress, List.append_assoc]
  have hprelen : (compress level s).length
      = (headerBytes ++ blockFor level s).length + 8 := by
    rw [hpre, List.length_append, hTlen]
  have hip : (headerBytes ++ blockFor level s).length ≤ i := by omega
  have hj8 : i - (headerBytes ++ blockFor level s).length < 8 := by omega
  have hgetD : (compress level s).getD i 0
      = (trailerBytes s).getD (i - (headerBytes ++ blockFor level s).length) 0 := by
    rw [hpre]
    exact List.getD_append_right _ _ 0 i hip
  have hflip : flipBitAt (compress level s) i k
      = (headerBytes ++ blockFor level s)
        ++ (trailerBytes s).set (i - (headerBytes ++ blockFor level s).length)
            ((trailerBytes s).getD (i - (headerBytes ++ blockFor level s).length) 0
              ^^^ 2 ^ k) := by
    unfold flipBitAt
    rw [hgetD, hpre, List.set_append, if_neg (by omega)]
  rw [hflip]
  have hv : (trailerBytes s).getD (i - (headerBytes ++ blockFor level s).length) 0
      ^^^ 2 ^ k
      = (trailerBytes s).getD (i - (headerBytes ++ blockFor level s).length) 0
        ^^^ 2 ^ k := rfl
  set j := i - (headerBytes ++ blockFor level s).length with hjdef
  set v := (trailerBytes s).getD j 0 ^^^ 2 ^ k with hvdef
  set T2 := (trailerBytes s).set j v with hT2def
  have hT2len : T2.length = 8 := by
    rw [hT2def, List.length_set, hTlen]
  have hform : (headerBytes ++ blockFor level s) ++ T2
      = 8 :: 7 :: (blockFor level s ++ T2) := by
    simp [headerBytes]
  rw [hform]
  -- the flipped trailer cannot pass the checks
  have hTtake : (trailerBytes s).take 4 = toLE 4 (checksum s) :=
    take_append_of_length _ _ 4 (toLE_length 4 _)
  have hTdrop : (trailerBytes s).drop 4 = toLE 4 s.length :=
    drop_append_of_length _ _ 4 (toLE_length 4 _)
  have hfT1 : fromLE ((trailerBytes s).take 4) = checksum s := by
    rw [hTtake, fromLE_toLE, pow256_4]
    exact Nat.mod_eq_of_lt (checksum_lt s)
  have hfT2 : fromLE ((trailerBytes s).drop 4) = s.length % 4294967296 := by
    rw [hTdrop, fromLE_toLE, pow256_4]
  have hbT : ∀ b ∈ trailerBytes s, b < 256 := trailerBytes_lt s
  have hvlt : v < 256 := by
    have h1 : (trailerBytes s).getD j 0 < 256 :=
      hbT _ (getD_mem_of_lt (trailerBytes s) j (by omega))
    have h2 : (2 : Nat) ^ k < 256 := by
      calc (2 : Nat) ^ k < 2 ^ 8 := Nat.pow_lt_pow_right (by omega) hk
      _ = 256 := by norm_num
    have h256 : (256 : Nat) = 2 ^ 8 := by norm_num
    rw [hvdef, h256]
    exact Nat.xor_lt_two_pow (by omega) (by omega)
  have hbT2 : ∀ b ∈ T2, b < 256 := by
    intro b hb
    rcases List.mem_or_eq_of_mem_set hb with h' | h'
    · exact hbT b h'
    · omega
  have hcond : ¬(fromLE (T2.take 4) = checksum s
      ∧ fromLE (T2.drop 4) = s.length % 4294967296) := by
    rintro ⟨hc1, hc2⟩
    have htake_eq : T2.take 4 = (trailerBytes s).take 4 := by
      apply fromLE_inj
      · rw [List.length_take, List.length_take, hT2len, hTlen]
      · intro b hb
        exact hbT2 b (List.mem_of_mem_take hb)
      · intro b hb
        exact hbT b (List.mem_of_mem_take hb)
      · rw [hc1, hfT1]
    have hdrop_eq : T2.drop 4 = (trailerBytes s).drop 4 := by
      apply fromLE_inj
      · rw [List.length_drop, List.length_drop, hT2len, hTlen]
      · intro b hb
        exact hbT2 b (List.mem_of_mem_drop hb)
      · intro b hb
        exact hbT b (List.mem_of_mem_drop hb)
      · rw [hc2, hfT2]
    have hTeq : T2 = trailerBytes s := by
      have e1 := List.take_append_drop 4 T2
      rw [htake_eq, hdrop_eq] at e1
      rw [← e1, List.take_append_drop]
    have hne : T2.getD j 0 = v :=
      getD_set_self (trailerBytes s) j (by omega) v
    rw [hTeq] at hne
    exact xor_two_pow_ne ((trailerBytes s).getD j 0) k hne.symm
  simp only [decompress]
  rw [if_pos (⟨trivial, trivial⟩ : True ∧ True)]
  rw [parseBlocks_blockFor level s T2 h (blockFor level s ++ T2).length]
  simp only []
  rw [if_neg (by omega), if_neg (by omega), if_neg hcond]

/-- Claim C5: for every stream produced by the compressor, flipping any
single bit of the 8-byte trailer makes decompression fail with
`ChecksumMismatch`, and truncating the stream anywhere inside the block
region makes decompression fail with `UnexpectedEnd`. -/
theorem corruption_detected (level : Nat) (s : List Nat)
    (hlen : s.length < 4294967296) :
    (∀ i k, k < 8 → (compress level s).length - 8 ≤ i →
      i < (compress level s).length →
      decompress (flipBitAt (compress level s) i k)
        = .error .checksumMismatch)
    ∧ (∀ t, 2 ≤ t → t < 2 + (blockFor level s).length →
      decompress ((compress level s).take t) = .error .unexpectedEnd) := by
  constructor
  · intro i k hk hi1 hi2
    exact decompress_flip_trailer level s hlen i k hk hi1 hi2
  · intro t _ ht
    apply decompress_truncated_all level s hlen t
    have htot : (compress level s).length
        = 2 + (blockFor level s).length + 8 := by
      simp [compress, headerBytes, trailerBytes, toLE_length]
      omega
    omega

/-- Claim C5 witness: a concrete trailer bit flip and a concrete mid-block
truncation. -/
theorem corruption_detected_witness :
    decompress (flipBitAt (compress 0 [5, 6]) 16 3) = .error .checksumMismatch
    ∧ decompress ((compress 0 [5, 6]).take 5) = .error .unexpectedEnd :=
  ⟨(corruption_detected 0 [5, 6] (by decide)).1 16 3 (by decide) (by decide)
     (by decide),
   (corruption_detected 0 [5, 6] (by decide)).2 5 (by decide) (by decide)⟩

end CompressNio
